import Mathlib

/-!
Verification of the esgprep DRS publication-preparation tool, as documented in
src/docs/usage.rst and src/notebooks/esgprep-and-cmip6.ipynb.

The repository ships documentation only: the Python implementation (scanner,
classifier, checksum service, reconciliation engine, operation executor, CLI)
is not part of the source tree.  Every operational definition below therefore
carries a doc comment starting with "Modelled from the spec:" and is a direct
transcription of the specification and of the shipped documentation.

Layout:
  1. a small regular-expression engine with predicate atoms (needed for the
     documented default filter patterns), with a verified derivative matcher;
  2. the filesystem-walk filter model;
  3. dataset manifests, the version index, the reconciliation engine, the
     operation executor and the multi-dataset pipeline;
  4. thin CLI models (exit status, required project argument, logfile/debug);
  5. the claim theorems.
-/

/- ### 1. Regular expressions with predicate atoms -/

/-- Regular expressions over characters.  Atoms are boolean character
predicates, so that the character classes appearing in the documented
default patterns (the dot, and the class [\w]) are expressible. -/
inductive RE where
  | emp : RE
  | eps : RE
  | pred (p : Char → Bool) : RE
  | cat (a b : RE) : RE
  | alt (a b : RE) : RE
  | star (a : RE) : RE

/-- Matching semantics of a regular expression, as an inductive relation. -/
inductive RMatches : RE → List Char → Prop where
  | eps : RMatches RE.eps []
  | pred {p : Char → Bool} {c : Char} : p c = true → RMatches (RE.pred p) (c :: [])
  | cat {a b : RE} {l1 l2 : List Char} :
      RMatches a l1 → RMatches b l2 → RMatches (RE.cat a b) (l1 ++ l2)
  | altL {a b : RE} {l : List Char} : RMatches a l → RMatches (RE.alt a b) l
  | altR {a b : RE} {l : List Char} : RMatches b l → RMatches (RE.alt a b) l
  | starNil {a : RE} : RMatches (RE.star a) []
  | starCons {a : RE} {l1 l2 : List Char} :
      RMatches a l1 → RMatches (RE.star a) l2 → RMatches (RE.star a) (l1 ++ l2)

/-- Does the expression accept the empty string? -/
def nullable : RE → Bool
  | RE.emp => false
  | RE.eps => true
  | RE.pred _ => false
  | RE.cat a b => nullable a && nullable b
  | RE.alt a b => nullable a || nullable b
  | RE.star _ => true

/-- Brzozowski derivative of an expression by one character. -/
def rderiv : RE → Char → RE
  | RE.emp, _ => RE.emp
  | RE.eps, _ => RE.emp
  | RE.pred p, c => if p c then RE.eps else RE.emp
  | RE.cat a b, c =>
      if nullable a then RE.alt (RE.cat (rderiv a c) b) (rderiv b c)
      else RE.cat (rderiv a c) b
  | RE.alt a b, c => RE.alt (rderiv a c) (rderiv b c)
  | RE.star a, c => RE.cat (rderiv a c) (RE.star a)

/-- Executable matcher: iterate the derivative and test nullability. -/
def rmatch (r : RE) (l : List Char) : Bool :=
  nullable (l.foldl rderiv r)

theorem emp_matches_iff {l : List Char} : RMatches RE.emp l ↔ False :=
  iff_of_false (fun h => nomatch h) not_false

theorem eps_matches_iff {l : List Char} : RMatches RE.eps l ↔ l = [] := by
  constructor
  · intro h; cases h; rfl
  · intro h; subst h; exact RMatches.eps

theorem pred_matches_iff {p : Char → Bool} {l : List Char} :
    RMatches (RE.pred p) l ↔ ∃ c, l = c :: [] ∧ p c = true := by
  constructor
  · intro h; cases h with
    | pred hp => exact ⟨_, rfl, hp⟩
  · rintro ⟨c, rfl, hp⟩; exact RMatches.pred hp

theorem cat_matches_iff {a b : RE} {l : List Char} :
    RMatches (RE.cat a b) l ↔ ∃ l1 l2, l = l1 ++ l2 ∧ RMatches a l1 ∧ RMatches b l2 := by
  constructor
  · intro h; cases h with
    | cat h1 h2 => exact ⟨_, _, rfl, h1, h2⟩
  · rintro ⟨l1, l2, rfl, h1, h2⟩; exact RMatches.cat h1 h2

theorem alt_matches_iff {a b : RE} {l : List Char} :
    RMatches (RE.alt a b) l ↔ RMatches a l ∨ RMatches b l := by
  constructor
  · intro h; cases h with
    | altL h1 => exact Or.inl h1
    | altR h1 => exact Or.inr h1
  · rintro (h1 | h1)
    · exact RMatches.altL h1
    · exact RMatches.altR h1

theorem star_matches_inv {r : RE} {x : List Char} (h : RMatches r x) :
    ∀ a, r = RE.star a →
      x = [] ∨ ∃ c l1 l2, x = c :: (l1 ++ l2) ∧ RMatches a (c :: l1) ∧
        RMatches (RE.star a) l2 := by
  induction h with
  | eps => exact fun a ha => RE.noConfusion ha
  | pred hp => exact fun a ha => RE.noConfusion ha
  | cat h1 h2 ih1 ih2 => exact fun a ha => RE.noConfusion ha
  | altL h1 ih1 => exact fun a ha => RE.noConfusion ha
  | altR h1 ih1 => exact fun a ha => RE.noConfusion ha
  | starNil => exact fun a ha => Or.inl rfl
  | starCons h1 h2 ih1 ih2 =>
      rename_i a0 l1 l2
      intro a ha
      injection ha with haa
      subst haa
      cases l1 with
      | nil => simpa using ih2 a0 rfl
      | cons c t => exact Or.inr ⟨c, t, l2, rfl, h1, h2⟩

theorem star_matches_cons_iff {a : RE} {c : Char} {l : List Char} :
    RMatches (RE.star a) (c :: l) ↔
      ∃ l1 l2, l = l1 ++ l2 ∧ RMatches a (c :: l1) ∧ RMatches (RE.star a) l2 := by
  constructor
  · intro h
    rcases star_matches_inv h a rfl with h0 | ⟨c2, l1, l2, he, h1, h2⟩
    · exact absurd h0 (List.cons_ne_nil c l)
    · injection he with hc hl
      subst hc
      exact ⟨l1, l2, hl, h1, h2⟩
  · rintro ⟨l1, l2, rfl, h1, h2⟩
    exact RMatches.starCons h1 h2

theorem nullable_iff (r : RE) : nullable r = true ↔ RMatches r [] := by
  induction r with
  | emp => simp [nullable, emp_matches_iff]
  | eps => simp [nullable, eps_matches_iff]
  | pred p => simp [nullable, pred_matches_iff]
  | cat a b iha ihb =>
      rw [show nullable (RE.cat a b) = (nullable a && nullable b) from rfl,
        Bool.and_eq_true, iha, ihb, cat_matches_iff]
      constructor
      · rintro ⟨h1, h2⟩; exact ⟨[], [], rfl, h1, h2⟩
      · rintro ⟨l1, l2, he, h1, h2⟩
        rcases List.append_eq_nil.mp he.symm with ⟨rfl, rfl⟩
        exact ⟨h1, h2⟩
  | alt a b iha ihb =>
      rw [show nullable (RE.alt a b) = (nullable a || nullable b) from rfl,
        Bool.or_eq_true, iha, ihb, alt_matches_iff]
  | star a iha =>
      simp only [nullable, true_iff]
      exact RMatches.starNil

theorem deriv_matches_iff (r : RE) (c : Char) (l : List Char) :
    RMatches (rderiv r c) l ↔ RMatches r (c :: l) := by
  induction r generalizing l with
  | emp => simp [rderiv, emp_matches_iff]
  | eps =>
      simp [rderiv, emp_matches_iff, eps_matches_iff]
  | pred p =>
      by_cases hp : p c = true
      · rw [show rderiv (RE.pred p) c = RE.eps by simp [rderiv, hp],
          eps_matches_iff, pred_matches_iff]
        constructor
        · rintro rfl; exact ⟨c, rfl, hp⟩
        · rintro ⟨d, he, hd⟩
          injection he with hc hl
      · rw [show rderiv (RE.pred p) c = RE.emp by simp [rderiv, hp],
          emp_matches_iff, pred_matches_iff]
        constructor
        · intro h; exact h.elim
        · rintro ⟨d, he, hd⟩
          injection he with hc hl
          subst hc
          exact absurd hd hp
  | cat a b iha ihb =>
      by_cases hn : nullable a = true
      · simp only [rderiv, hn, if_pos]
        rw [alt_matches_iff, cat_matches_iff, cat_matches_iff]
        constructor
        · rintro (⟨l1, l2, rfl, h1, h2⟩ | hb)
          · exact ⟨c :: l1, l2, rfl, (iha l1).mp h1, h2⟩
          · exact ⟨[], c :: l, rfl, (nullable_iff a).mp hn, (ihb l).mp hb⟩
        · rintro ⟨l1, l2, he, h1, h2⟩
          cases l1 with
          | nil =>
              rw [List.nil_append] at he
              subst he
              exact Or.inr ((ihb l).mpr h2)
          | cons d t =>
              rw [List.cons_append] at he
              injection he with hc ht
              subst hc
              subst ht
              exact Or.inl ⟨t, l2, rfl, (iha t).mpr h1, h2⟩
      · rw [show rderiv (RE.cat a b) c = RE.cat (rderiv a c) b by simp [rderiv, hn]]
        rw [cat_matches_iff, cat_matches_iff]
        constructor
        · rintro ⟨l1, l2, rfl, h1, h2⟩
          exact ⟨c :: l1, l2, rfl, (iha l1).mp h1, h2⟩
        · rintro ⟨l1, l2, he, h1, h2⟩
          cases l1 with
          | nil =>
              exact absurd ((nullable_iff a).mpr h1) (by simpa using hn)
          | cons d t =>
              rw [List.cons_append] at he
              injection he with hc ht
              subst hc
              subst ht
              exact ⟨t, l2, rfl, (iha t).mpr h1, h2⟩
  | alt a b iha ihb => simp [rderiv, alt_matches_iff, iha, ihb]
  | star a iha =>
      simp only [rderiv]
      rw [cat_matches_iff, star_matches_cons_iff]
      constructor
      · rintro ⟨l1, l2, rfl, h1, h2⟩
        exact ⟨l1, l2, rfl, (iha l1).mp h1, h2⟩
      · rintro ⟨l1, l2, rfl, h1, h2⟩
        exact ⟨l1, l2, rfl, (iha l1).mpr h1, h2⟩

theorem rmatch_iff {r : RE} {l : List Char} : rmatch r l = true ↔ RMatches r l := by
  induction l generalizing r with
  | nil => exact nullable_iff r
  | cons c t ih =>
      have h1 : rmatch r (c :: t) = rmatch (rderiv r c) t := by
        simp [rmatch, List.foldl_cons]
      rw [h1]
      exact ih.trans (deriv_matches_iff r c t)

/- ### 2. The documented default filter patterns and the walk filter -/

/-- The dot of a Python regular expression: any character except a newline. -/
def dotPred : Char → Bool := fun c => c != '\n'

/-- Word characters of the regular-expression class [\w] (ASCII, as in the
Python 2 re library the documentation links to). -/
def wordPred : Char → Bool := fun c => c.isAlphanum || c == '_'

/-- The regular expression matching exactly one given literal word. -/
def reOfList (w : List Char) : RE :=
  w.foldr (fun c acc => RE.cat (RE.pred (fun d => d == c)) acc) RE.eps

/-- No newline occurs in the character list (path and file names are assumed
to be single-line, matching the intent of the documented patterns). -/
def noNL (l : List Char) : Bool := l.all dotPred

theorem reOfList_matches_iff {w l : List Char} : RMatches (reOfList w) l ↔ l = w := by
  induction w generalizing l with
  | nil => exact eps_matches_iff
  | cons c t ih =>
      rw [show reOfList (c :: t) =
            RE.cat (RE.pred (fun d => d == c)) (reOfList t) from rfl,
        cat_matches_iff]
      constructor
      · rintro ⟨l1, l2, rfl, h1, h2⟩
        rcases pred_matches_iff.mp h1 with ⟨d, rfl, hd⟩
        have hdc : d = c := by simpa using hd
        rw [ih.mp h2, hdc]
        rfl
      · rintro rfl
        exact ⟨c :: [], t, rfl, pred_matches_iff.mpr ⟨c, rfl, by simp⟩, ih.mpr rfl⟩

theorem star_pred_matches_all {r : RE} {x : List Char} (h : RMatches r x) :
    ∀ p, r = RE.star (RE.pred p) → x.all p = true := by
  induction h with
  | eps => exact fun p hp => RE.noConfusion hp
  | pred hc => exact fun p hp => RE.noConfusion hp
  | cat h1 h2 ih1 ih2 => exact fun p hp => RE.noConfusion hp
  | altL h1 ih1 => exact fun p hp => RE.noConfusion hp
  | altR h1 ih1 => exact fun p hp => RE.noConfusion hp
  | starNil => intro p hp; rfl
  | starCons h1 h2 ih1 ih2 =>
      intro p hp
      injection hp with ha
      subst ha
      rcases pred_matches_iff.mp h1 with ⟨c, rfl, hc⟩
      rw [List.all_append, Bool.and_eq_true]
      refine ⟨by simpa using hc, ih2 p rfl⟩

theorem star_pred_matches_iff {p : Char → Bool} {l : List Char} :
    RMatches (RE.star (RE.pred p)) l ↔ l.all p = true := by
  constructor
  · intro h; exact star_pred_matches_all h p rfl
  · intro h
    induction l with
    | nil => exact RMatches.starNil
    | cons c t ih =>
        rw [List.all_cons, Bool.and_eq_true] at h
        exact RMatches.starCons (RMatches.pred h.1) (ih h.2)

/-- Modelled from the spec: the alternation at the heart of the documented
default ignore-directory pattern, (files|latest|\.[\w]*), from
src/docs/usage.rst (the walking code itself is not in the source tree). -/
def ignoreDirCore : RE :=
  RE.alt (reOfList ('f' :: 'i' :: 'l' :: 'e' :: 's' :: []))
    (RE.alt (reOfList ('l' :: 'a' :: 't' :: 'e' :: 's' :: 't' :: []))
      (RE.cat (RE.pred (fun d => d == '.')) (RE.star (RE.pred wordPred))))

/-- Modelled from the spec: the default ignore-directory pattern of the
filesystem walk, given in src/docs/usage.rst as ^.*/(files|latest|\.[\w]*).*$ -/
def ignoreDirDefault : RE :=
  RE.cat (RE.star (RE.pred dotPred))
    (RE.cat (RE.pred (fun d => d == '/'))
      (RE.cat ignoreDirCore (RE.star (RE.pred dotPred))))

/-- Modelled from the spec: the default include-filename pattern .*\.nc$ of
src/docs/usage.rst. -/
def includeFileDefault : RE :=
  RE.cat (RE.star (RE.pred dotPred)) (reOfList ('.' :: 'n' :: 'c' :: []))

/-- Modelled from the spec: the default exclude-filename pattern ^\..*$ of
src/docs/usage.rst. -/
def excludeFileDefault : RE :=
  RE.cat (RE.pred (fun d => d == '.')) (RE.star (RE.pred dotPred))

theorem ignoreDirCore_matches_iff {w : List Char} :
    RMatches ignoreDirCore w ↔
      w = 'f' :: 'i' :: 'l' :: 'e' :: 's' :: [] ∨
      w = 'l' :: 'a' :: 't' :: 'e' :: 's' :: 't' :: [] ∨
      ∃ ws, w = '.' :: ws ∧ ws.all wordPred = true := by
  rw [show ignoreDirCore =
        RE.alt (reOfList ('f' :: 'i' :: 'l' :: 'e' :: 's' :: []))
          (RE.alt (reOfList ('l' :: 'a' :: 't' :: 'e' :: 's' :: 't' :: []))
            (RE.cat (RE.pred (fun d => d == '.')) (RE.star (RE.pred wordPred)))) from rfl,
    alt_matches_iff, alt_matches_iff, cat_matches_iff,
    reOfList_matches_iff, reOfList_matches_iff]
  constructor
  · rintro (h | h | ⟨l1, l2, rfl, h1, h2⟩)
    · exact Or.inl h
    · exact Or.inr (Or.inl h)
    · rcases pred_matches_iff.mp h1 with ⟨d, rfl, hd⟩
      have hdd : d = '.' := by simpa using hd
      subst hdd
      exact Or.inr (Or.inr ⟨l2, rfl, star_pred_matches_iff.mp h2⟩)
  · rintro (h | h | ⟨ws, rfl, hw⟩)
    · exact Or.inl h
    · exact Or.inr (Or.inl h)
    · exact Or.inr (Or.inr ⟨'.' :: [], ws, rfl,
        pred_matches_iff.mpr ⟨'.', rfl, by simp⟩, star_pred_matches_iff.mpr hw⟩)

theorem exclude_default_iff {l : List Char} (hnl : noNL l = true) :
    rmatch excludeFileDefault l = true ↔ ∃ t, l = '.' :: t := by
  rw [rmatch_iff, show excludeFileDefault =
      RE.cat (RE.pred (fun d => d == '.')) (RE.star (RE.pred dotPred)) from rfl,
    cat_matches_iff]
  constructor
  · rintro ⟨l1, l2, rfl, h1, h2⟩
    rcases pred_matches_iff.mp h1 with ⟨d, rfl, hd⟩
    have hdd : d = '.' := by simpa using hd
    subst hdd
    exact ⟨l2, rfl⟩
  · rintro ⟨t, rfl⟩
    simp only [noNL, List.all_cons, Bool.and_eq_true] at hnl
    exact ⟨'.' :: [], t, rfl, pred_matches_iff.mpr ⟨'.', rfl, by simp⟩,
      star_pred_matches_iff.mpr hnl.2⟩

theorem include_default_iff {l : List Char} (hnl : noNL l = true) :
    rmatch includeFileDefault l = true ↔ ∃ t, l = t ++ ('.' :: 'n' :: 'c' :: []) := by
  rw [rmatch_iff, show includeFileDefault =
      RE.cat (RE.star (RE.pred dotPred)) (reOfList ('.' :: 'n' :: 'c' :: [])) from rfl,
    cat_matches_iff]
  constructor
  · rintro ⟨l1, l2, rfl, h1, h2⟩
    exact ⟨l1, by rw [reOfList_matches_iff.mp h2]⟩
  · rintro ⟨t, rfl⟩
    simp only [noNL, List.all_append, Bool.and_eq_true] at hnl
    exact ⟨t, '.' :: 'n' :: 'c' :: [], rfl,
      star_pred_matches_iff.mpr hnl.1, reOfList_matches_iff.mpr rfl⟩

/-- A path candidate produced by the recursive walk: the directory part and
the file name.  The spec (design notes) prescribes modelling the filtered walk
as a lazy sequence of path candidates with a pure filtering predicate. -/
structure PathCandidate where
  dirPath : String
  fileName : String
deriving DecidableEq

/-- Result of the filtering walk: kept candidates, a count of silently dropped
candidates, and the per-file errors raised by the walk itself. -/
structure ScanOutcome where
  kept : List PathCandidate
  dropped : Nat
  errors : List String
deriving DecidableEq

/-- Modelled from the spec: a candidate survives the walk iff its directory
path does not match the ignore-directory pattern, its file name matches the
include pattern and does not match the exclude pattern (usage.rst, Use
filters; the walking code is not in the source tree). -/
def keepCandidate (ignoreDir includeFile excludeFile : RE) (p : PathCandidate) : Bool :=
  !(rmatch ignoreDir p.dirPath.data) && rmatch includeFile p.fileName.data &&
    !(rmatch excludeFile p.fileName.data)

/-- Modelled from the spec: the filtering walk drops non-matching candidates
silently (counted, not errored) and never fails on them. -/
def walkFilter (ignoreDir includeFile excludeFile : RE)
    (ps : List PathCandidate) : ScanOutcome :=
  ⟨ps.filter (keepCandidate ignoreDir includeFile excludeFile),
   (ps.filter (fun p => !(keepCandidate ignoreDir includeFile excludeFile p))).length,
   []⟩

/- ### 3. Manifests, version index, reconciliation, execution -/

/-- One file of a dataset manifest: relative file name, size and checksum. -/
structure FileRecord where
  name : String
  size : Nat
  checksum : String
deriving DecidableEq

/-- A dataset manifest: the files of one dataset at one version. -/
abbrev Manifest := List FileRecord

/-- The filename-to-checksum mapping a manifest denotes. -/
def lookupName (m : Manifest) (n : String) : Option String :=
  (m.find? (fun r => r.name == n)).map FileRecord.checksum

/-- The file names of a manifest. -/
def manifestNames (m : Manifest) : List String := m.map FileRecord.name

/-- Modelled from the spec: two manifests are equivalent iff they contain the
same filenames each with equal checksum (data model, section 3); executable
form used by the engine. -/
def equivalentB (a b : Manifest) : Bool :=
  a.all (fun r => lookupName b r.name == some r.checksum) &&
  b.all (fun r => lookupName a r.name == some r.checksum)

theorem mem_manifestNames {m : Manifest} {n : String} :
    n ∈ manifestNames m ↔ ∃ r, r ∈ m ∧ r.name = n := by
  simp only [manifestNames, List.mem_map]

theorem lookupName_eq_some_of_mem {m : Manifest} {r : FileRecord}
    (hnd : (manifestNames m).Nodup) (hr : r ∈ m) :
    lookupName m r.name = some r.checksum := by
  induction m with
  | nil => cases hr
  | cons x t ih =>
      rw [manifestNames, List.map_cons, List.nodup_cons] at hnd
      rcases List.mem_cons.mp hr with rfl | hrt
      · simp [lookupName, List.find?_cons_of_pos]
      · have hne : x.name ≠ r.name := by
          intro he
          exact hnd.1 (he ▸ mem_manifestNames.mpr ⟨r, hrt, rfl⟩)
        have : (x.name == r.name) = false := by
          exact beq_eq_false_iff_ne.mpr hne
        simp only [lookupName, List.find?_cons, this]
        exact ih hnd.2 hrt

theorem lookupName_eq_some_iff {m : Manifest} {n c : String} :
    lookupName m n = some c → ∃ r, r ∈ m ∧ r.name = n ∧ r.checksum = c := by
  intro h
  simp only [lookupName, Option.map_eq_some'] at h
  rcases h with ⟨r, hfind, rfl⟩
  have hmem := List.mem_of_find?_eq_some hfind
  have hp := List.find?_some hfind
  exact ⟨r, hmem, by simpa using hp, rfl⟩

theorem lookupName_eq_none_iff {m : Manifest} {n : String} :
    lookupName m n = none ↔ ∀ r, r ∈ m → r.name ≠ n := by
  simp only [lookupName, Option.map_eq_none', List.find?_eq_none, beq_iff_eq]

theorem lookupName_mem_names {m : Manifest} {n : String} :
    (∃ c, lookupName m n = some c) ↔ n ∈ manifestNames m := by
  constructor
  · rintro ⟨c, hc⟩
    rcases lookupName_eq_some_iff hc with ⟨r, hr, rfl, _⟩
    exact mem_manifestNames.mpr ⟨r, hr, rfl⟩
  · intro h
    rcases mem_manifestNames.mp h with ⟨r, hr, rfl⟩
    rcases hfind : (m.find? (fun s => s.name == r.name)) with _ | s
    · exact absurd (beq_self_eq_true r.name) ((List.find?_eq_none.mp hfind) r hr)
    · exact ⟨s.checksum, by simp [lookupName, hfind]⟩

theorem lookupName_perm {m m2 : Manifest} {n : String}
    (hnd : (manifestNames m).Nodup) (hp : m.Perm m2) :
    lookupName m n = lookupName m2 n := by
  have hnd2 : (manifestNames m2).Nodup := (hp.map FileRecord.name).nodup hnd
  rcases hc : lookupName m n with _ | c
  · rcases hc2 : lookupName m2 n with _ | c2
    · rfl
    · rcases lookupName_eq_some_iff hc2 with ⟨r, hr, rfl, rfl⟩
      exact absurd rfl ((lookupName_eq_none_iff.mp hc) r (hp.mem_iff.mpr hr))
  · rcases lookupName_eq_some_iff hc with ⟨r, hr, rfl, rfl⟩
    exact ((lookupName_eq_some_of_mem hnd2 (hp.mem_iff.mp hr))).symm

theorem equivalentB_iff {a b : Manifest}
    (hna : (manifestNames a).Nodup) (hnb : (manifestNames b).Nodup) :
    equivalentB a b = true ↔ ∀ n, lookupName a n = lookupName b n := by
  rw [equivalentB, Bool.and_eq_true, List.all_eq_true, List.all_eq_true]
  constructor
  · rintro ⟨hab, hba⟩ n
    rcases hc : lookupName a n with _ | c
    · rcases hc2 : lookupName b n with _ | c2
      · rfl
      · rcases lookupName_eq_some_iff hc2 with ⟨r, hr, rfl, rfl⟩
        have := hba r hr
        rw [hc] at this
        exact absurd this (by simp)
    · rcases lookupName_eq_some_iff hc with ⟨r, hr, rfl, rfl⟩
      have h2 : lookupName b r.name = some r.checksum := by simpa using hab r hr
      rw [h2]
  · intro h
    constructor
    · intro r hr
      rw [← h r.name, lookupName_eq_some_of_mem hna hr]
      exact beq_self_eq_true _
    · intro r hr
      rw [h r.name, lookupName_eq_some_of_mem hnb hr]
      exact beq_self_eq_true _

theorem equivalentB_self {a : Manifest} (hna : (manifestNames a).Nodup) :
    equivalentB a a = true :=
  (equivalentB_iff hna hna).mpr (fun _ => rfl)

/-- A published version: a version identifier with its persisted manifest. -/
abbrev VersionEntry := Nat × Manifest

/-- Fold step selecting the entry with the largest version identifier. -/
def pickLatest (acc : Option VersionEntry) (e : VersionEntry) : Option VersionEntry :=
  match acc with
  | none => some e
  | some a => if a.1 < e.1 then some e else some a

/-- Modelled from the spec: the Dataset Version Index returns the latest
published version of a dataset, the maximum version identifier present
(data model, section 3; the index code is not in the source tree). -/
def latestEntry (h : List VersionEntry) : Option VersionEntry :=
  h.foldl pickLatest none

theorem foldl_pickLatest_some {l : List VersionEntry} {a : VersionEntry} :
    ∀ {m : VersionEntry}, l.foldl pickLatest (some a) = some m →
      (∀ e, e ∈ l → e.1 ≤ m.1) ∧ a.1 ≤ m.1 := by
  induction l generalizing a with
  | nil =>
      intro m hm
      injection hm with hm2
      subst hm2
      exact ⟨fun e he => absurd he (List.not_mem_nil e), le_refl _⟩
  | cons x t ih =>
      intro m hm
      rw [List.foldl_cons] at hm
      rcases hx : pickLatest (some a) x with _ | y
      · exfalso
        by_cases hlt : a.1 < x.1 <;> simp [pickLatest, hlt] at hx
      · rw [hx] at hm
        rcases ih hm with ⟨ht, hy⟩
        have hxy : x.1 ≤ y.1 ∧ a.1 ≤ y.1 := by
          simp only [pickLatest] at hx
          by_cases hlt : a.1 < x.1
          · rw [if_pos hlt] at hx
            injection hx with hx2
            subst hx2
            exact ⟨le_refl _, le_of_lt hlt⟩
          · rw [if_neg hlt] at hx
            injection hx with hx2
            subst hx2
            exact ⟨le_of_not_lt hlt, le_refl _⟩
        constructor
        · intro e he
          rcases List.mem_cons.mp he with rfl | het
          · exact le_trans hxy.1 hy
          · exact ht e het
        · exact le_trans hxy.2 hy

theorem latestEntry_mem {h : List VersionEntry} {m : VersionEntry}
    (hm : latestEntry h = some m) : m ∈ h := by
  have aux : ∀ (l : List VersionEntry) (acc : Option VersionEntry) (m : VersionEntry),
      l.foldl pickLatest acc = some m → acc = some m ∨ m ∈ l := by
    intro l
    induction l with
    | nil => intro acc m hm2; exact Or.inl hm2
    | cons x t ih =>
        intro acc m hm2
        rw [List.foldl_cons] at hm2
        rcases ih (pickLatest acc x) m hm2 with hacc | hmem
        · rcases acc with _ | a
          · simp only [pickLatest] at hacc
            injection hacc with h2
            exact Or.inr (h2 ▸ List.mem_cons_self x t)
          · simp only [pickLatest] at hacc
            by_cases hlt : a.1 < x.1
            · rw [if_pos hlt] at hacc
              injection hacc with h2
              exact Or.inr (h2 ▸ List.mem_cons_self x t)
            · rw [if_neg hlt] at hacc
              exact Or.inl hacc
        · exact Or.inr (List.mem_cons_of_mem x hmem)
  rcases aux h none m hm with h0 | h1
  · exact absurd h0 (by simp)
  · exact h1

theorem latestEntry_max {h : List VersionEntry} {m : VersionEntry}
    (hm : latestEntry h = some m) : ∀ e, e ∈ h → e.1 ≤ m.1 := by
  rcases h with _ | ⟨x, t⟩
  · intro e he; exact absurd he (List.not_mem_nil e)
  · rw [latestEntry, List.foldl_cons] at hm
    simp only [pickLatest] at hm
    rcases foldl_pickLatest_some hm with ⟨ht, hx⟩
    intro e he
    rcases List.mem_cons.mp he with rfl | het
    · exact hx
    · exact ht e het

theorem latestEntry_eq_none {h : List VersionEntry} :
    latestEntry h = none ↔ h = [] := by
  constructor
  · intro hn
    rcases h with _ | ⟨x, t⟩
    · rfl
    · exfalso
      rw [latestEntry, List.foldl_cons] at hn
      simp only [pickLatest] at hn
      rcases hsome : t.foldl pickLatest (some x) with _ | m
      · clear hn
        induction t generalizing x with
        | nil => simp at hsome
        | cons y u ih =>
            rw [List.foldl_cons] at hsome
            simp only [pickLatest] at hsome
            by_cases hlt : x.1 < y.1
            · rw [if_pos hlt] at hsome
              exact ih y hsome
            · rw [if_neg hlt] at hsome
              exact ih x hsome
      · rw [hsome] at hn
        exact Option.noConfusion hn
  · intro hn; subst hn; rfl

theorem latestEntry_cons_of_max {h : List VersionEntry} {v : Nat} {m : Manifest}
    (hv : ∀ e, e ∈ h → e.1 < v) : latestEntry ((v, m) :: h) = some (v, m) := by
  rw [latestEntry, List.foldl_cons]
  show h.foldl pickLatest (pickLatest none (v, m)) = some (v, m)
  simp only [pickLatest]
  have aux : ∀ (l : List VersionEntry) (a : VersionEntry),
      (∀ e, e ∈ l → e.1 ≤ a.1) → l.foldl pickLatest (some a) = some a := by
    intro l
    induction l with
    | nil => intro a ha; rfl
    | cons x t ih =>
        intro a ha
        rw [List.foldl_cons]
        simp only [pickLatest]
        rw [if_neg (not_lt_of_le (ha x (List.mem_cons_self x t)))]
        exact ih a (fun e he => ha e (List.mem_cons_of_mem x he))
  exact aux h (v, m) (fun e he => le_of_lt (hv e he))

/-- A reconciliation decision, one per dataset (spec data model, section 3). -/
inductive Decision where
  | upToDate : Decision
  | initVersion (vid : Nat) (newFiles : List String) : Decision
  | upgrade (vid : Nat) (reused newFiles removed : List String) : Decision
deriving DecidableEq

/-- Per-dataset reconciliation errors (spec error taxonomy, section 7). -/
inductive RecError where
  | conflict (explicitVid latestVid : Nat) : RecError
deriving DecidableEq

/-- Modelled from the spec: reused = files present unchanged (same checksum)
in both the candidate and the latest published manifest (spec 4.4). -/
def reusedOf (cand latest : Manifest) : List String :=
  (cand.filter (fun r => lookupName latest r.name == some r.checksum)).map FileRecord.name

/-- Modelled from the spec: new = files present only in the candidate or with
changed content (spec 4.4). -/
def newOf (cand latest : Manifest) : List String :=
  (cand.filter (fun r => !(lookupName latest r.name == some r.checksum))).map FileRecord.name

/-- Modelled from the spec: removed = files present only in the latest
published manifest (spec 4.4). -/
def removedOf (cand latest : Manifest) : List String :=
  (latest.filter (fun r => (lookupName cand r.name).isNone)).map FileRecord.name

/-- Modelled from the spec: the Reconciliation Engine core algorithm
(spec 4.4).  With no published version the decision is Initialize with the
user-supplied version identifier or one derived from the current date.
With a published version, a user-supplied explicit version that is not
strictly greater than the latest is a ReconciliationConflict and the engine
refuses to proceed for the dataset (spec 4.4 step 3 and the version-ordering
testable property of section 8).  Otherwise equivalent manifests give
Up-to-date and anything else gives Upgrade with the three file sets; a
derived upgrade identifier is kept strictly greater than the latest, as the
spec requires of every Upgrade. -/
def reconcile (userVersion : Option Nat) (today : Nat)
    (history : List VersionEntry) (cand : Manifest) : Except RecError Decision :=
  match latestEntry history with
  | none => Except.ok (Decision.initVersion (userVersion.getD today) (manifestNames cand))
  | some (lv, lm) =>
      match userVersion with
      | some v =>
          if v ≤ lv then Except.error (RecError.conflict v lv)
          else if equivalentB cand lm then Except.ok Decision.upToDate
          else Except.ok
            (Decision.upgrade v (reusedOf cand lm) (newOf cand lm) (removedOf cand lm))
      | none =>
          if equivalentB cand lm then Except.ok Decision.upToDate
          else Except.ok
            (Decision.upgrade (max today (lv + 1))
              (reusedOf cand lm) (newOf cand lm) (removedOf cand lm))

/-- A filesystem operation of the Operation Executor (spec 4.5): create the
version directory, transfer (link, copy or move) one file into it, write the
version metadata record. -/
inductive FileAction where
  | createVersionDir (vid : Nat) : FileAction
  | transferFile (vid : Nat) (name : String) : FileAction
  | writeVersionMetadata (vid : Nat) : FileAction
deriving DecidableEq

/-- Modelled from the spec: the operations a decision gives rise to; an
Up-to-date decision emits no operation (spec 4.4 step 2). -/
def operationsOf : Decision → List FileAction
  | Decision.upToDate => []
  | Decision.initVersion vid names =>
      FileAction.createVersionDir vid ::
        (names.map (FileAction.transferFile vid) ++
          (FileAction.writeVersionMetadata vid :: []))
  | Decision.upgrade vid reused newNames _ =>
      FileAction.createVersionDir vid ::
        ((reused ++ newNames).map (FileAction.transferFile vid) ++
          (FileAction.writeVersionMetadata vid :: []))

theorem mem_reusedOf {cand lm : Manifest} {n : String}
    (hndc : (manifestNames cand).Nodup) :
    n ∈ reusedOf cand lm ↔
      ∃ c, lookupName cand n = some c ∧ lookupName lm n = some c := by
  rw [reusedOf]
  simp only [List.mem_map, List.mem_filter]
  constructor
  · rintro ⟨r, ⟨hr, hl⟩, rfl⟩
    exact ⟨r.checksum, lookupName_eq_some_of_mem hndc hr, by simpa using hl⟩
  · rintro ⟨c, hc, hl⟩
    rcases lookupName_eq_some_iff hc with ⟨r, hr, rfl, rfl⟩
    exact ⟨r, ⟨hr, by simp [hl]⟩, rfl⟩

theorem mem_newOf {cand lm : Manifest} {n : String}
    (hndc : (manifestNames cand).Nodup) :
    n ∈ newOf cand lm ↔
      ∃ c, lookupName cand n = some c ∧ lookupName lm n ≠ some c := by
  rw [newOf]
  simp only [List.mem_map, List.mem_filter]
  constructor
  · rintro ⟨r, ⟨hr, hl⟩, rfl⟩
    refine ⟨r.checksum, lookupName_eq_some_of_mem hndc hr, ?_⟩
    simpa using hl
  · rintro ⟨c, hc, hl⟩
    rcases lookupName_eq_some_iff hc with ⟨r, hr, rfl, rfl⟩
    exact ⟨r, ⟨hr, by simpa using hl⟩, rfl⟩

theorem mem_removedOf {cand lm : Manifest} {n : String}
    (hndl : (manifestNames lm).Nodup) :
    n ∈ removedOf cand lm ↔
      lookupName cand n = none ∧ ∃ c, lookupName lm n = some c := by
  rw [removedOf]
  simp only [List.mem_map, List.mem_filter]
  constructor
  · rintro ⟨r, ⟨hr, hl⟩, rfl⟩
    exact ⟨Option.isNone_iff_eq_none.mp hl,
      r.checksum, lookupName_eq_some_of_mem hndl hr⟩
  · rintro ⟨hc, c, hl⟩
    rcases lookupName_eq_some_iff hl with ⟨r, hr, rfl, rfl⟩
    exact ⟨r, ⟨hr, by simp [hc]⟩, rfl⟩

/-- Modelled from the spec: the Operation Executor materialises the decided
version: for Initialize and Upgrade it persists the candidate manifest as a
new published version; Up-to-date changes nothing (spec 4.5). -/
def applyDecision (cand : Manifest) (d : Decision) (h : List VersionEntry) :
    List VersionEntry :=
  match d with
  | Decision.upToDate => h
  | Decision.initVersion vid _ => (vid, cand) :: h
  | Decision.upgrade vid _ _ _ => (vid, cand) :: h

/-- Modelled from the spec: one dataset's reconcile-then-execute step.  On a
reconciliation error the engine refuses to proceed and the version history is
left unchanged (spec 4.4 step 3, section 8). -/
def runDataset (uv : Option Nat) (today : Nat) (cand : Manifest)
    (h : List VersionEntry) : List VersionEntry × Except RecError Decision :=
  match reconcile uv today h cand with
  | Except.error e => (h, Except.error e)
  | Except.ok d => (applyDecision cand d h, Except.ok d)

/-- The DRS root as the Version Index sees it: per dataset identifier, the
list of published versions. -/
abbrev Archive := List (String × List VersionEntry)

/-- The version history the archive holds for one dataset. -/
def histOf (fs : Archive) (ds : String) : List VersionEntry :=
  match fs.find? (fun e => e.1 == ds) with
  | none => []
  | some e => e.2

/-- Replace (or create) one dataset's version history. -/
def setHist (fs : Archive) (ds : String) (h : List VersionEntry) : Archive :=
  if fs.any (fun e => e.1 == ds) then
    fs.map (fun e => if e.1 == ds then (ds, h) else e)
  else (ds, h) :: fs

/-- Modelled from the spec: process one dataset against the archive;
decisions are per dataset and never partially applied across datasets
(spec data model, section 3). -/
def runOne (uv : Option Nat) (today : Nat) (ds : String) (cand : Manifest)
    (fs : Archive) : Archive × Except RecError Decision :=
  (setHist fs ds (runDataset uv today cand (histOf fs ds)).1,
   (runDataset uv today cand (histOf fs ds)).2)

/-- Modelled from the spec: reconcile and execute every scanned dataset in
turn (spec control flow, section 2). -/
def runAll (uv : Option Nat) (today : Nat) (inputs : List (String × Manifest))
    (fs : Archive) : Archive :=
  inputs.foldl (fun acc i => (runOne uv today i.1 i.2 acc).1) fs

theorem histOf_map_other {fs : Archive} {ds ds2 : String} {h : List VersionEntry}
    (hne : ds2 ≠ ds) :
    histOf (fs.map (fun e => if e.1 == ds then (ds, h) else e)) ds2 = histOf fs ds2 := by
  induction fs with
  | nil => rfl
  | cons x t ih =>
      by_cases hx : x.1 = ds
      · have hb : (x.1 == ds) = true := beq_iff_eq.mpr hx
        have hb1 : (ds == ds2) = false := beq_eq_false_iff_ne.mpr (fun he => hne he.symm)
        have hb2 : (x.1 == ds2) = false :=
          beq_eq_false_iff_ne.mpr (fun he => hne (he.symm.trans hx))
        simp only [histOf, List.map_cons, List.find?_cons, hb, if_pos, hb1, hb2] at *
        exact ih
      · have hb : (x.1 == ds) = false := beq_eq_false_iff_ne.mpr hx
        by_cases hx2 : x.1 = ds2
        · have hb2 : (x.1 == ds2) = true := beq_iff_eq.mpr hx2
          simp only [histOf, List.map_cons, List.find?_cons, hb, if_neg, Bool.false_eq_true,
            not_false_iff, hb2]
        · have hb2 : (x.1 == ds2) = false := beq_eq_false_iff_ne.mpr hx2
          simp only [histOf, List.map_cons, List.find?_cons, hb, if_neg, Bool.false_eq_true,
            not_false_iff, hb2] at *
          exact ih

theorem histOf_map_self {fs : Archive} {ds : String} {h : List VersionEntry}
    (hany : fs.any (fun e => e.1 == ds) = true) :
    histOf (fs.map (fun e => if e.1 == ds then (ds, h) else e)) ds = h := by
  induction fs with
  | nil => simp at hany
  | cons x t ih =>
      by_cases hx : x.1 = ds
      · have hb : (x.1 == ds) = true := beq_iff_eq.mpr hx
        simp only [histOf, List.map_cons, List.find?_cons, hb, if_pos, beq_self_eq_true]
      · have hb : (x.1 == ds) = false := beq_eq_false_iff_ne.mpr hx
        rw [List.any_cons, Bool.or_eq_true] at hany
        rcases hany with hh | ht
        · rw [hb] at hh
          exact absurd hh (by simp)
        · simp only [histOf, List.map_cons, List.find?_cons, hb, if_neg, Bool.false_eq_true,
            not_false_iff] at *
          exact ih ht

theorem histOf_setHist (fs : Archive) (ds ds2 : String) (h : List VersionEntry) :
    histOf (setHist fs ds h) ds2 = if ds2 = ds then h else histOf fs ds2 := by
  rw [setHist]
  by_cases hany : fs.any (fun e => e.1 == ds) = true
  · rw [if_pos hany]
    by_cases hds : ds2 = ds
    · rw [if_pos hds, hds]
      exact histOf_map_self hany
    · rw [if_neg hds]
      exact histOf_map_other hds
  · rw [if_neg hany]
    by_cases hds : ds2 = ds
    · subst hds
      simp [histOf, List.find?_cons, beq_self_eq_true]
    · have hb : (ds == ds2) = false := beq_eq_false_iff_ne.mpr (fun he => hds he.symm)
      rw [if_neg hds]
      simp only [histOf, List.find?_cons, hb]

theorem histOf_runOne (uv : Option Nat) (today : Nat) (ds : String) (cand : Manifest)
    (fs : Archive) (ds2 : String) :
    histOf (runOne uv today ds cand fs).1 ds2 =
      if ds2 = ds then (runDataset uv today cand (histOf fs ds)).1
      else histOf fs ds2 := by
  rw [runOne]
  exact histOf_setHist fs ds ds2 _

theorem reconcile_no_version {uv : Option Nat} {today : Nat} {history : List VersionEntry}
    {cand : Manifest} (hle : latestEntry history = none) :
    reconcile uv today history cand =
      Except.ok (Decision.initVersion (uv.getD today) (manifestNames cand)) := by
  unfold reconcile
  rw [hle]

theorem reconcile_conflict {v today : Nat} {history : List VersionEntry} {cand : Manifest}
    {lv : Nat} {lm : Manifest} (hle : latestEntry history = some (lv, lm)) (hv : v ≤ lv) :
    reconcile (some v) today history cand = Except.error (RecError.conflict v lv) := by
  unfold reconcile
  rw [hle]
  simp only [if_pos hv]

theorem reconcile_uptodate_some {v today : Nat} {history : List VersionEntry}
    {cand : Manifest} {lv : Nat} {lm : Manifest} (hle : latestEntry history = some (lv, lm))
    (hv : ¬ v ≤ lv) (heq : equivalentB cand lm = true) :
    reconcile (some v) today history cand = Except.ok Decision.upToDate := by
  unfold reconcile
  rw [hle]
  simp only [if_neg hv, heq, if_pos]

theorem reconcile_upgrade_some {v today : Nat} {history : List VersionEntry}
    {cand : Manifest} {lv : Nat} {lm : Manifest} (hle : latestEntry history = some (lv, lm))
    (hv : ¬ v ≤ lv) (heq : equivalentB cand lm = false) :
    reconcile (some v) today history cand =
      Except.ok (Decision.upgrade v (reusedOf cand lm) (newOf cand lm) (removedOf cand lm)) := by
  unfold reconcile
  rw [hle]
  simp only [if_neg hv, heq, Bool.false_eq_true, if_neg, not_false_iff]

theorem reconcile_uptodate_none {today : Nat} {history : List VersionEntry}
    {cand : Manifest} {lv : Nat} {lm : Manifest} (hle : latestEntry history = some (lv, lm))
    (heq : equivalentB cand lm = true) :
    reconcile none today history cand = Except.ok Decision.upToDate := by
  unfold reconcile
  rw [hle]
  simp only [heq, if_pos]

theorem reconcile_upgrade_none {today : Nat} {history : List VersionEntry}
    {cand : Manifest} {lv : Nat} {lm : Manifest} (hle : latestEntry history = some (lv, lm))
    (heq : equivalentB cand lm = false) :
    reconcile none today history cand =
      Except.ok (Decision.upgrade (max today (lv + 1))
        (reusedOf cand lm) (newOf cand lm) (removedOf cand lm)) := by
  unfold reconcile
  rw [hle]
  simp only [heq, Bool.false_eq_true, if_neg, not_false_iff]

theorem runDataset_of_ok {uv : Option Nat} {today : Nat} {cand : Manifest}
    {h : List VersionEntry} {d : Decision}
    (hr : reconcile uv today h cand = Except.ok d) :
    runDataset uv today cand h = (applyDecision cand d h, Except.ok d) := by
  unfold runDataset
  rw [hr]

theorem runDataset_of_error {uv : Option Nat} {today : Nat} {cand : Manifest}
    {h : List VersionEntry} {e : RecError}
    (hr : reconcile uv today h cand = Except.error e) :
    runDataset uv today cand h = (h, Except.error e) := by
  unfold runDataset
  rw [hr]

theorem runDataset_state_of_ok {uv : Option Nat} {today : Nat} {cand : Manifest}
    {h : List VersionEntry} {d : Decision}
    (hr : reconcile uv today h cand = Except.ok d) :
    (runDataset uv today cand h).1 = applyDecision cand d h := by
  rw [runDataset_of_ok hr]

theorem runDataset_state_of_error {uv : Option Nat} {today : Nat} {cand : Manifest}
    {h : List VersionEntry} {e : RecError}
    (hr : reconcile uv today h cand = Except.error e) :
    (runDataset uv today cand h).1 = h := by
  rw [runDataset_of_error hr]

theorem runDataset_state_idem (uv : Option Nat) (today : Nat) (cand : Manifest)
    (h : List VersionEntry) (hnd : (manifestNames cand).Nodup) :
    (runDataset uv today cand (runDataset uv today cand h).1).1 =
      (runDataset uv today cand h).1 := by
  rcases hle : latestEntry h with _ | ⟨lv, lm⟩
  · have hnil := latestEntry_eq_none.mp hle
    subst hnil
    rw [runDataset_state_of_ok (reconcile_no_version hle)]
    simp only [applyDecision]
    rcases uv with _ | v
    · simp only [Option.getD_none]
      have hle2 : latestEntry ((today, cand) :: ([] : List VersionEntry)) =
          some (today, cand) := rfl
      rw [runDataset_state_of_ok (reconcile_uptodate_none hle2 (equivalentB_self hnd))]
      rfl
    · simp only [Option.getD_some]
      have hle2 : latestEntry ((v, cand) :: ([] : List VersionEntry)) =
          some (v, cand) := rfl
      rw [runDataset_state_of_error (reconcile_conflict hle2 (le_refl v))]
  · rcases uv with _ | v
    · by_cases heq : equivalentB cand lm = true
      · rw [runDataset_state_of_ok (reconcile_uptodate_none hle heq)]
        simp only [applyDecision]
        rw [runDataset_state_of_ok (reconcile_uptodate_none hle heq)]
        simp only [applyDecision]
      · rw [Bool.not_eq_true] at heq
        rw [runDataset_state_of_ok (reconcile_upgrade_none hle heq)]
        simp only [applyDecision]
        have hmax : ∀ e, e ∈ h → e.1 < max today (lv + 1) := by
          intro e he
          exact lt_of_le_of_lt (latestEntry_max hle e he)
            (lt_of_lt_of_le (Nat.lt_succ_self lv) (le_max_right today (lv + 1)))
        rw [runDataset_state_of_ok
          (reconcile_uptodate_none (latestEntry_cons_of_max hmax) (equivalentB_self hnd))]
        simp only [applyDecision]
    · by_cases hv : v ≤ lv
      · rw [runDataset_state_of_error (reconcile_conflict hle hv)]
        rw [runDataset_state_of_error (reconcile_conflict hle hv)]
      · by_cases heq : equivalentB cand lm = true
        · rw [runDataset_state_of_ok (reconcile_uptodate_some hle hv heq)]
          simp only [applyDecision]
          rw [runDataset_state_of_ok (reconcile_uptodate_some hle hv heq)]
          simp only [applyDecision]
        · rw [Bool.not_eq_true] at heq
          rw [runDataset_state_of_ok (reconcile_upgrade_some hle hv heq)]
          simp only [applyDecision]
          have hmax : ∀ e, e ∈ h → e.1 < v := by
            intro e he
            exact lt_of_le_of_lt (latestEntry_max hle e he) (lt_of_not_le hv)
          rw [runDataset_state_of_error
            (reconcile_conflict (latestEntry_cons_of_max hmax) (le_refl v))]

theorem histOf_runAll_not_mem (uv : Option Nat) (today : Nat)
    {inputs : List (String × Manifest)} {ds : String}
    (hds : ∀ i, i ∈ inputs → i.1 ≠ ds) :
    ∀ fs : Archive, histOf (runAll uv today inputs fs) ds = histOf fs ds := by
  induction inputs with
  | nil => intro fs; rfl
  | cons x t ih =>
      intro fs
      show histOf (runAll uv today t (runOne uv today x.1 x.2 fs).1) ds = histOf fs ds
      rw [ih (fun i hi => hds i (List.mem_cons_of_mem x hi))]
      rw [histOf_runOne, if_neg (fun he => hds x (List.mem_cons_self x t) he.symm)]

theorem histOf_runAll_found (uv : Option Nat) (today : Nat)
    {inputs : List (String × Manifest)} {ds : String} {p : String × Manifest}
    (hnd : (inputs.map Prod.fst).Nodup)
    (hfind : inputs.find? (fun i => i.1 == ds) = some p) :
    ∀ fs : Archive,
      histOf (runAll uv today inputs fs) ds = (runDataset uv today p.2 (histOf fs ds)).1 := by
  induction inputs with
  | nil => intro fs; simp at hfind
  | cons x t ih =>
      intro fs
      rw [List.map_cons, List.nodup_cons] at hnd
      show histOf (runAll uv today t (runOne uv today x.1 x.2 fs).1) ds = _
      by_cases hx : x.1 = ds
      · rw [List.find?_cons_of_pos] at hfind
        · injection hfind with hp
          subst hp
          have hnotmem : ∀ i, i ∈ t → i.1 ≠ ds := by
            intro i hi he
            exact hnd.1 (hx ▸ he ▸ List.mem_map_of_mem Prod.fst hi)
          rw [histOf_runAll_not_mem uv today hnotmem]
          rw [histOf_runOne, if_pos hx.symm, hx]
        · simpa using hx
      · rw [List.find?_cons_of_neg] at hfind
        · have hfs : histOf (runOne uv today x.1 x.2 fs).1 ds = histOf fs ds := by
            rw [histOf_runOne, if_neg (fun he => hx he.symm)]
          rw [ih hnd.2 hfind, hfs]
        · simpa using hx

/-- A source file found by the scan: path, content (standing for the bytes
the checksum is computed over) and size. -/
structure SourceFile where
  path : String
  content : String
  fsize : Nat
deriving DecidableEq

/-- Append one classified, checksummed file record to its dataset's candidate
manifest, creating the dataset entry on first sight. -/
def addToDataset (acc : List (String × Manifest)) (ds : String) (r : FileRecord) :
    List (String × Manifest) :=
  if acc.any (fun e => e.1 == ds) then
    acc.map (fun e => if e.1 == ds then (e.1, e.2 ++ (r :: [])) else e)
  else acc ++ ((ds, r :: []) :: [])

/-- Modelled from the spec: one step of the scan-classify-checksum phase.
The classifier and the checksum algorithm are the external collaborators of
spec 4.1 and 4.2, passed in as functions; a file the classifier rejects is
recorded and skipped (partial-failure semantics). -/
def buildStep (classify : String → Option (String × String))
    (checksumOf : String → String) (acc : List (String × Manifest))
    (f : SourceFile) : List (String × Manifest) :=
  match classify f.path with
  | none => acc
  | some (ds, rel) => addToDataset acc ds ⟨rel, f.fsize, checksumOf f.content⟩

/-- Modelled from the spec: scan, classify and checksum every source file and
build the candidate manifest of every dataset (spec section 2 control flow). -/
def buildCandidates (classify : String → Option (String × String))
    (checksumOf : String → String) (files : List SourceFile) :
    List (String × Manifest) :=
  files.foldl (buildStep classify checksumOf) []

theorem addToDataset_keys (acc : List (String × Manifest)) (ds : String) (r : FileRecord) :
    (addToDataset acc ds r).map Prod.fst =
      if acc.any (fun e => e.1 == ds) then acc.map Prod.fst
      else acc.map Prod.fst ++ (ds :: []) := by
  rw [addToDataset]
  by_cases hany : acc.any (fun e => e.1 == ds) = true
  · rw [if_pos hany, if_pos hany, List.map_map]
    have hfst : (Prod.fst ∘ fun e : String × Manifest =>
        if e.1 == ds then (e.1, e.2 ++ (r :: [])) else e) = Prod.fst := by
      funext e
      show (if e.1 == ds then (e.1, e.2 ++ (r :: [])) else e).1 = e.1
      by_cases he : (e.1 == ds) = true
      · rw [if_pos he]
      · rw [if_neg he]
    rw [hfst]
  · rw [if_neg hany, if_neg hany, List.map_append]
    rfl

theorem buildCandidates_keys_nodup (classify : String → Option (String × String))
    (checksumOf : String → String) (files : List SourceFile) :
    ((buildCandidates classify checksumOf files).map Prod.fst).Nodup := by
  have aux : ∀ (fl : List SourceFile) (acc : List (String × Manifest)),
      (acc.map Prod.fst).Nodup →
      ((fl.foldl (buildStep classify checksumOf) acc).map Prod.fst).Nodup := by
    intro fl
    induction fl with
    | nil => intro acc h; exact h
    | cons f t ih =>
        intro acc h
        rw [List.foldl_cons]
        apply ih
        rw [buildStep]
        rcases classify f.path with _ | ⟨ds, rel⟩
        · exact h
        · rw [addToDataset_keys]
          by_cases hany : acc.any (fun e => e.1 == ds) = true
          · rw [if_pos hany]
            exact h
          · rw [if_neg hany]
            have hnm : ds ∉ acc.map Prod.fst := by
              intro hmem
              rcases List.mem_map.mp hmem with ⟨e, he, hfst⟩
              rw [List.any_eq_true] at hany
              exact hany ⟨e, he, beq_iff_eq.mpr hfst⟩
            simp [List.nodup_append, h, hnm]
  exact aux files [] (by simp)

/- ### 4. Thin CLI models -/

/-- What a whole run came to: an argument-parsing failure, or a completed run
with counts of up-to-date, newly initialized, upgraded and failed datasets
(spec section 7, user-visible behavior). -/
inductive RunOutcome where
  | argParseError : RunOutcome
  | completed (upToDateCount newVersionCount upgradedCount failedCount : Nat) : RunOutcome
deriving DecidableEq

/-- Modelled from the spec: the process exit status.  Exit code 99 signals an
argument-parsing error (src/docs/usage.rst, Exit status); otherwise the exit
is zero on full success, including the nothing-to-do case, and non-zero when
at least one dataset failed unrecoverably (spec section 6; the CLI code is
not in the source tree). -/
def exitStatus : RunOutcome → Nat
  | RunOutcome.argParseError => 99
  | RunOutcome.completed _ _ _ fails => if fails = 0 then 0 else 1

/-- The four esgprep commands of src/docs/usage.rst. -/
inductive Command where
  | esgfetchini : Command
  | esgdrs : Command
  | esgcheckvocab : Command
  | esgmapfile : Command
deriving DecidableEq

/-- Modelled from the spec: the project argument is always required, except
for the esgfetchini subcommand (src/docs/usage.rst, Specify the project; the
argument-parsing code is not in the source tree). -/
def projectRequired : Command → Bool
  | Command.esgfetchini => false
  | Command.esgdrs => true
  | Command.esgcheckvocab => true
  | Command.esgmapfile => true

/-- Modelled from the spec: validation of the project argument; omitting a
required project argument is an argument-parsing error, exit code 99. -/
def checkProjectArg (cmd : Command) (projectGiven : Bool) : Except Nat Unit :=
  if projectRequired cmd && !projectGiven then Except.error 99 else Except.ok ()

/-- How a subcommand reports progress: verbose step-by-step logging, or
interactive progress bars. -/
structure OutputMode where
  verboseSteps : Bool
  progressBars : Bool
deriving DecidableEq

/-- Modelled from the spec: debug mode displays each step verbosely instead
of progress bars, and is silently activated when a logfile is used
(src/docs/usage.rst, Debug mode and Use a logfile; the logging code is not
in the source tree). -/
def outputModeOf (debugFlag useLogfile : Bool) : OutputMode :=
  if useLogfile then ⟨true, false⟩
  else ⟨debugFlag, !debugFlag⟩

theorem ignore_dir_default_iff {l : List Char} (hnl : noNL l = true) :
    rmatch ignoreDirDefault l = true ↔
      (∃ t u, l = t ++ ('/' :: 'f' :: 'i' :: 'l' :: 'e' :: 's' :: []) ++ u) ∨
      (∃ t u, l = t ++ ('/' :: 'l' :: 'a' :: 't' :: 'e' :: 's' :: 't' :: []) ++ u) ∨
      (∃ t u, l = t ++ ('/' :: '.' :: []) ++ u) := by
  rw [rmatch_iff, show ignoreDirDefault = RE.cat (RE.star (RE.pred dotPred))
      (RE.cat (RE.pred (fun d => d == '/'))
        (RE.cat ignoreDirCore (RE.star (RE.pred dotPred)))) from rfl]
  rw [cat_matches_iff]
  constructor
  · rintro ⟨l1, l2, rfl, h1, h2⟩
    rw [cat_matches_iff] at h2
    rcases h2 with ⟨m1, m2, rfl, hm1, hm2⟩
    rcases pred_matches_iff.mp hm1 with ⟨d, rfl, hd⟩
    have hds : d = '/' := by simpa using hd
    subst hds
    rw [cat_matches_iff] at hm2
    rcases hm2 with ⟨w, rest, rfl, hw, hrest⟩
    rcases ignoreDirCore_matches_iff.mp hw with hf | hlat | ⟨ws, rfl, hws⟩
    · subst hf
      exact Or.inl ⟨l1, rest, by simp⟩
    · subst hlat
      exact Or.inr (Or.inl ⟨l1, rest, by simp⟩)
    · exact Or.inr (Or.inr ⟨l1, ws ++ rest, by simp⟩)
  · intro h
    have hsplit : ∃ t w u, l = t ++ ('/' :: w) ++ u ∧ RMatches ignoreDirCore w := by
      rcases h with ⟨t, u, he⟩ | ⟨t, u, he⟩ | ⟨t, u, he⟩
      · exact ⟨t, 'f' :: 'i' :: 'l' :: 'e' :: 's' :: [], u, he,
          ignoreDirCore_matches_iff.mpr (Or.inl rfl)⟩
      · exact ⟨t, 'l' :: 'a' :: 't' :: 'e' :: 's' :: 't' :: [], u, he,
          ignoreDirCore_matches_iff.mpr (Or.inr (Or.inl rfl))⟩
      · exact ⟨t, '.' :: [], u, he,
          ignoreDirCore_matches_iff.mpr (Or.inr (Or.inr ⟨[], rfl, rfl⟩))⟩
    rcases hsplit with ⟨t, w, u, rfl, hw⟩
    simp only [noNL, List.append_assoc, List.cons_append, List.all_append, List.all_cons,
      Bool.and_eq_true] at hnl
    have heq2 : t ++ ('/' :: w) ++ u = t ++ ('/' :: (w ++ u)) :=
      List.append_assoc t ('/' :: w) u
    refine ⟨t, '/' :: (w ++ u), heq2, ?_, ?_⟩
    · exact star_pred_matches_iff.mpr hnl.1
    · refine cat_matches_iff.mpr ⟨'/' :: [], w ++ u, rfl,
        pred_matches_iff.mpr ⟨'/', rfl, by simp⟩, ?_⟩
      refine cat_matches_iff.mpr ⟨w, u, rfl, hw, ?_⟩
      exact star_pred_matches_iff.mpr hnl.2.2.2

theorem length_filter_split {α : Type} (p : α → Bool) (l : List α) :
    (l.filter p).length + (l.filter (fun a => !(p a))).length = l.length := by
  induction l with
  | nil => rfl
  | cons x t ih =>
      by_cases hx : p x = true
      · rw [List.filter_cons_of_pos, List.filter_cons_of_neg]
        · simp only [List.length_cons]
          omega
        · simp [hx]
        · exact hx
      · rw [List.filter_cons_of_neg, List.filter_cons_of_pos]
        · simp only [List.length_cons]
          omega
        · simp [hx]
        · simpa using hx

theorem reconcile_upgrade_inv {uv : Option Nat} {today : Nat}
    {history : List VersionEntry} {cand : Manifest} {vid : Nat}
    {ru nw rm : List String} {lv : Nat} {lm : Manifest}
    (hle : latestEntry history = some (lv, lm))
    (he : reconcile uv today history cand = Except.ok (Decision.upgrade vid ru nw rm)) :
    ru = reusedOf cand lm ∧ nw = newOf cand lm ∧ rm = removedOf cand lm := by
  rcases uv with _ | v
  · by_cases heq : equivalentB cand lm = true
    · rw [reconcile_uptodate_none hle heq] at he
      exact absurd he (by simp)
    · rw [Bool.not_eq_true] at heq
      rw [reconcile_upgrade_none hle heq] at he
      injection he with h2
      injection h2 with h3 h4 h5 h6
      exact ⟨h4.symm, h5.symm, h6.symm⟩
  · by_cases hv : v ≤ lv
    · rw [reconcile_conflict hle hv] at he
      exact Except.noConfusion he
    · by_cases heq : equivalentB cand lm = true
      · rw [reconcile_uptodate_some hle hv heq] at he
        exact absurd he (by simp)
      · rw [Bool.not_eq_true] at heq
        rw [reconcile_upgrade_some hle hv heq] at he
        injection he with h2
        injection h2 with h3 h4 h5 h6
        exact ⟨h4.symm, h5.symm, h6.symm⟩

/- ### 5. The claim theorems -/

/-- C1: for every dataset with at least one published version, if the
candidate manifest and the latest published manifest contain exactly the same
filenames each with equal checksum, the Reconciliation Engine decides
Up-to-date and emits no operation; and this holds for every order of file
discovery: any permutation of the candidate manifest yields the same
decision (manifest equivalence is order-independent). -/
theorem c1_equivalent_up_to_date (uv : Option Nat) (today : Nat)
    (history : List VersionEntry) (cand cand2 : Manifest) (lv : Nat) (lm : Manifest)
    (hle : latestEntry history = some (lv, lm))
    (huv : ∀ v, uv = some v → lv < v)
    (hnd : (manifestNames cand).Nodup)
    (hndl : (manifestNames lm).Nodup)
    (heq : ∀ n, lookupName cand n = lookupName lm n)
    (hperm : cand.Perm cand2) :
    reconcile uv today history cand2 = Except.ok Decision.upToDate ∧
      operationsOf Decision.upToDate = [] := by
  have hnd2 : (manifestNames cand2).Nodup :=
    ((hperm.map FileRecord.name).nodup_iff).mp hnd
  have heq2 : ∀ n, lookupName cand2 n = lookupName lm n := by
    intro n
    rw [← lookupName_perm hnd hperm, heq n]
  have hb : equivalentB cand2 lm = true := (equivalentB_iff hnd2 hndl).mpr heq2
  refine ⟨?_, rfl⟩
  rcases uv with _ | v
  · exact reconcile_uptodate_none hle hb
  · exact reconcile_uptodate_some hle (not_le_of_lt (huv v rfl)) hb

theorem c1_witness :
    ((manifestNames
        (FileRecord.mk "a.nc" 4 "csA" :: FileRecord.mk "b.nc" 2 "csB" :: [])).Nodup) ∧
    (reconcile none 2
        ((1, FileRecord.mk "a.nc" 4 "csA" :: FileRecord.mk "b.nc" 2 "csB" :: []) :: [])
        (FileRecord.mk "b.nc" 2 "csB" :: FileRecord.mk "a.nc" 4 "csA" :: []) =
      Except.ok Decision.upToDate ∧ operationsOf Decision.upToDate = []) := by
  refine ⟨by decide, ?_⟩
  exact c1_equivalent_up_to_date none 2
    ((1, FileRecord.mk "a.nc" 4 "csA" :: FileRecord.mk "b.nc" 2 "csB" :: []) :: [])
    (FileRecord.mk "a.nc" 4 "csA" :: FileRecord.mk "b.nc" 2 "csB" :: [])
    (FileRecord.mk "b.nc" 2 "csB" :: FileRecord.mk "a.nc" 4 "csA" :: [])
    1 (FileRecord.mk "a.nc" 4 "csA" :: FileRecord.mk "b.nc" 2 "csB" :: [])
    rfl (fun v hv => Option.noConfusion hv) (by decide) (by decide) (fun n => rfl)
    (List.Perm.swap (FileRecord.mk "b.nc" 2 "csB") (FileRecord.mk "a.nc" 4 "csA") [])

/-- C2: every Upgrade decision carries three pairwise disjoint file sets whose
union is the union of the candidate and latest manifest filenames: reused is
exactly the files present unchanged (same checksum) in both manifests, new is
exactly the files present only in the candidate or with changed content, and
removed is exactly the files present only in the latest published manifest. -/
theorem c2_upgrade_partition (uv : Option Nat) (today : Nat)
    (history : List VersionEntry) (cand : Manifest) (lv : Nat) (lm : Manifest)
    (vid : Nat) (ru nw rm : List String)
    (hle : latestEntry history = some (lv, lm))
    (hndc : (manifestNames cand).Nodup)
    (hndl : (manifestNames lm).Nodup)
    (he : reconcile uv today history cand = Except.ok (Decision.upgrade vid ru nw rm)) :
    (∀ n, n ∈ ru ↔ ∃ c, lookupName cand n = some c ∧ lookupName lm n = some c) ∧
    (∀ n, n ∈ nw ↔ ∃ c, lookupName cand n = some c ∧ lookupName lm n ≠ some c) ∧
    (∀ n, n ∈ rm ↔ lookupName cand n = none ∧ ∃ c, lookupName lm n = some c) ∧
    (∀ n, ¬(n ∈ ru ∧ n ∈ nw)) ∧ (∀ n, ¬(n ∈ ru ∧ n ∈ rm)) ∧ (∀ n, ¬(n ∈ nw ∧ n ∈ rm)) ∧
    (∀ n, (n ∈ ru ∨ n ∈ nw ∨ n ∈ rm) ↔
      (n ∈ manifestNames cand ∨ n ∈ manifestNames lm)) := by
  rcases reconcile_upgrade_inv hle he with ⟨hru, hnw, hrm⟩
  subst hru
  subst hnw
  subst hrm
  refine ⟨fun n => mem_reusedOf hndc, fun n => mem_newOf hndc,
    fun n => mem_removedOf hndl, ?_, ?_, ?_, ?_⟩
  · rintro n ⟨h1, h2⟩
    rcases (mem_reusedOf hndc).mp h1 with ⟨c, hc1, hc2⟩
    rcases (mem_newOf hndc).mp h2 with ⟨c2, hd1, hd2⟩
    have hcc : c = c2 := by
      have h3 := hc1.symm.trans hd1
      injection h3
    exact hd2 (hcc ▸ hc2)
  · rintro n ⟨h1, h2⟩
    rcases (mem_reusedOf hndc).mp h1 with ⟨c, hc1, hc2⟩
    rcases (mem_removedOf hndl).mp h2 with ⟨hd1, _⟩
    rw [hc1] at hd1
    exact Option.noConfusion hd1
  · rintro n ⟨h1, h2⟩
    rcases (mem_newOf hndc).mp h1 with ⟨c, hc1, hc2⟩
    rcases (mem_removedOf hndl).mp h2 with ⟨hd1, _⟩
    rw [hc1] at hd1
    exact Option.noConfusion hd1
  · intro n
    constructor
    · rintro (h | h | h)
      · rcases (mem_reusedOf hndc).mp h with ⟨c, hc, _⟩
        exact Or.inl (lookupName_mem_names.mp ⟨c, hc⟩)
      · rcases (mem_newOf hndc).mp h with ⟨c, hc, _⟩
        exact Or.inl (lookupName_mem_names.mp ⟨c, hc⟩)
      · rcases (mem_removedOf hndl).mp h with ⟨_, c, hc⟩
        exact Or.inr (lookupName_mem_names.mp ⟨c, hc⟩)
    · rintro (h | h)
      · rcases lookupName_mem_names.mpr h with ⟨c, hc⟩
        rcases hl2 : lookupName lm n with _ | c2
        · refine Or.inr (Or.inl ((mem_newOf hndc).mpr ⟨c, hc, ?_⟩))
          rw [hl2]
          exact fun he2 => Option.noConfusion he2
        · by_cases hcc : c = c2
          · refine Or.inl ((mem_reusedOf hndc).mpr ⟨c, hc, ?_⟩)
            rw [hl2, hcc]
          · refine Or.inr (Or.inl ((mem_newOf hndc).mpr ⟨c, hc, ?_⟩))
            rw [hl2]
            intro he2
            injection he2 with he3
            exact hcc he3.symm
      · rcases lookupName_mem_names.mpr h with ⟨c, hc⟩
        rcases hl2 : lookupName cand n with _ | c2
        · exact Or.inr (Or.inr ((mem_removedOf hndl).mpr ⟨hl2, c, hc⟩))
        · by_cases hcc : c2 = c
          · refine Or.inl ((mem_reusedOf hndc).mpr ⟨c2, hl2, ?_⟩)
            rw [hc, hcc]
          · refine Or.inr (Or.inl ((mem_newOf hndc).mpr ⟨c2, hl2, ?_⟩))
            rw [hc]
            intro he2
            injection he2 with he3
            exact hcc he3.symm

theorem c2_witness :
    (reconcile (some 2) 9
        ((1, FileRecord.mk "a.nc" 1 "csA" :: FileRecord.mk "b.nc" 1 "csB" :: []) :: [])
        (FileRecord.mk "a.nc" 1 "csA" :: FileRecord.mk "b.nc" 1 "csC" :: []) =
      Except.ok (Decision.upgrade 2 ("a.nc" :: []) ("b.nc" :: []) [])) ∧
    (∀ n, (n ∈ ("a.nc" :: ([] : List String)) ∨ n ∈ ("b.nc" :: ([] : List String)) ∨
        n ∈ ([] : List String)) ↔
      (n ∈ manifestNames (FileRecord.mk "a.nc" 1 "csA" :: FileRecord.mk "b.nc" 1 "csC" :: []) ∨
       n ∈ manifestNames (FileRecord.mk "a.nc" 1 "csA" :: FileRecord.mk "b.nc" 1 "csB" :: []))) := by
  refine ⟨rfl, ?_⟩
  exact (c2_upgrade_partition (some 2) 9
    ((1, FileRecord.mk "a.nc" 1 "csA" :: FileRecord.mk "b.nc" 1 "csB" :: []) :: [])
    (FileRecord.mk "a.nc" 1 "csA" :: FileRecord.mk "b.nc" 1 "csC" :: [])
    1 (FileRecord.mk "a.nc" 1 "csA" :: FileRecord.mk "b.nc" 1 "csB" :: [])
    2 ("a.nc" :: []) ("b.nc" :: []) []
    rfl (by decide) (by decide) rfl).2.2.2.2.2.2

/-- C3: for every dataset with zero published versions the engine produces an
Initialize decision, with the version identifier either user-specified or
derived from the current date and all candidate files marked new; in
particular it never produces Upgrade or Up-to-date. -/
theorem c3_init_version (uv : Option Nat) (today : Nat) (cand : Manifest) :
    reconcile uv today [] cand =
      Except.ok (Decision.initVersion (uv.getD today) (manifestNames cand)) :=
  reconcile_no_version rfl

/-- C4: a user-supplied explicit version identifier that is not strictly
greater than the dataset's latest published version yields a
ReconciliationConflict for that dataset, the engine refuses to proceed, and
the whole archive (this dataset's history and every other dataset's) is left
unchanged. -/
theorem c4_version_conflict (today : Nat) (ds : String) (cand : Manifest)
    (fs : Archive) (v lv : Nat) (lm : Manifest)
    (hle : latestEntry (histOf fs ds) = some (lv, lm))
    (hv : v ≤ lv) :
    (runOne (some v) today ds cand fs).2 = Except.error (RecError.conflict v lv) ∧
    (∀ ds2, histOf (runOne (some v) today ds cand fs).1 ds2 = histOf fs ds2) := by
  constructor
  · show (runDataset (some v) today cand (histOf fs ds)).2 = _
    rw [runDataset_of_error (reconcile_conflict hle hv)]
  · intro ds2
    rw [histOf_runOne]
    by_cases hd : ds2 = ds
    · rw [if_pos hd, hd, runDataset_state_of_error (reconcile_conflict hle hv)]
    · rw [if_neg hd]

theorem c4_witness :
    ((3 : Nat) ≤ 5) ∧
    ((runOne (some 3) 9 "ds1" (FileRecord.mk "x.nc" 1 "c1" :: [])
        (("ds1", ((5, FileRecord.mk "a.nc" 1 "csA" :: []) :: [])) ::
          ("ds2", ((2, FileRecord.mk "z.nc" 1 "csZ" :: []) :: [])) :: [])).2 =
      Except.error (RecError.conflict 3 5) ∧
     (∀ ds2, histOf (runOne (some 3) 9 "ds1" (FileRecord.mk "x.nc" 1 "c1" :: [])
        (("ds1", ((5, FileRecord.mk "a.nc" 1 "csA" :: []) :: [])) ::
          ("ds2", ((2, FileRecord.mk "z.nc" 1 "csZ" :: []) :: [])) :: [])).1 ds2 =
      histOf (("ds1", ((5, FileRecord.mk "a.nc" 1 "csA" :: []) :: [])) ::
          ("ds2", ((2, FileRecord.mk "z.nc" 1 "csZ" :: []) :: [])) :: []) ds2)) :=
  ⟨by decide, c4_version_conflict 9 "ds1" (FileRecord.mk "x.nc" 1 "c1" :: [])
    (("ds1", ((5, FileRecord.mk "a.nc" 1 "csA" :: []) :: [])) ::
      ("ds2", ((2, FileRecord.mk "z.nc" 1 "csZ" :: []) :: [])) :: [])
    3 5 (FileRecord.mk "a.nc" 1 "csA" :: []) rfl (by decide)⟩

/-- C5: round-trip — for a dataset with no prior versions, applying the
Initialize decision and immediately reconciling the same unchanged candidate
files again yields an Up-to-date decision (for any second-run version setting
that does not itself conflict, in particular the default of no explicit
version). -/
theorem c5_round_trip (uv uv2 : Option Nat) (today today2 : Nat) (cand : Manifest)
    (hnd : (manifestNames cand).Nodup)
    (huv2 : ∀ v, uv2 = some v → uv.getD today < v) :
    (runDataset uv2 today2 cand (runDataset uv today cand []).1).2 =
      Except.ok Decision.upToDate := by
  rw [runDataset_state_of_ok (reconcile_no_version (latestEntry_eq_none.mpr rfl))]
  simp only [applyDecision]
  have hle2 : latestEntry ((uv.getD today, cand) :: ([] : List VersionEntry)) =
      some (uv.getD today, cand) := rfl
  rcases uv2 with _ | v
  · rw [runDataset_of_ok (reconcile_uptodate_none hle2 (equivalentB_self hnd))]
  · rw [runDataset_of_ok (reconcile_uptodate_some hle2
      (not_le_of_lt (huv2 v rfl)) (equivalentB_self hnd))]

theorem c5_witness :
    ((manifestNames (FileRecord.mk "a.nc" 1 "csA" :: [])).Nodup) ∧
    (runDataset none 3 (FileRecord.mk "a.nc" 1 "csA" :: [])
        (runDataset (some 2) 1 (FileRecord.mk "a.nc" 1 "csA" :: []) []).1).2 =
      Except.ok Decision.upToDate :=
  ⟨by decide, c5_round_trip (some 2) none 1 3 (FileRecord.mk "a.nc" 1 "csA" :: [])
    (by decide) (fun v hv => Option.noConfusion hv)⟩

/-- C6: idempotence — running the whole pipeline (scan, classify, checksum,
reconcile, execute) twice in sequence on the same unchanged source files with
the same settings creates no additional version directories on the second
run: every dataset's version history, and in particular its number of version
directories, is unchanged. -/
theorem c6_pipeline_idempotent (classify : String → Option (String × String))
    (checksumOf : String → String) (uv : Option Nat) (today : Nat)
    (files : List SourceFile) (fs : Archive)
    (hm : ∀ p, p ∈ buildCandidates classify checksumOf files →
      (manifestNames p.2).Nodup) :
    ∀ ds,
      histOf (runAll uv today (buildCandidates classify checksumOf files)
        (runAll uv today (buildCandidates classify checksumOf files) fs)) ds =
      histOf (runAll uv today (buildCandidates classify checksumOf files) fs) ds ∧
      (histOf (runAll uv today (buildCandidates classify checksumOf files)
        (runAll uv today (buildCandidates classify checksumOf files) fs)) ds).length =
      (histOf (runAll uv today (buildCandidates classify checksumOf files) fs) ds).length := by
  intro ds
  have hnd := buildCandidates_keys_nodup classify checksumOf files
  have heq2 : histOf (runAll uv today (buildCandidates classify checksumOf files)
        (runAll uv today (buildCandidates classify checksumOf files) fs)) ds =
      histOf (runAll uv today (buildCandidates classify checksumOf files) fs) ds := by
    rcases hfind : (buildCandidates classify checksumOf files).find?
        (fun i => i.1 == ds) with _ | p
    · have hne : ∀ i, i ∈ buildCandidates classify checksumOf files → i.1 ≠ ds := by
        intro i hi he
        have h2 := List.find?_eq_none.mp hfind i hi
        simp [he] at h2
      exact histOf_runAll_not_mem uv today hne _
    · have h1 := histOf_runAll_found uv today hnd hfind fs
      have h2 := histOf_runAll_found uv today hnd hfind
        (runAll uv today (buildCandidates classify checksumOf files) fs)
      have hp : p ∈ buildCandidates classify checksumOf files :=
        List.mem_of_find?_eq_some hfind
      rw [h2, h1]
      exact runDataset_state_idem uv today p.2 (histOf fs ds) (hm p hp)
  exact ⟨heq2, by rw [heq2]⟩

theorem c6_witness :
    histOf
      (runAll (some 7) 5
        (buildCandidates (fun _ => some ("d1", "f.nc")) (fun c => c)
          (SourceFile.mk "/a/f.nc" "xyz" 3 :: []))
        (runAll (some 7) 5
          (buildCandidates (fun _ => some ("d1", "f.nc")) (fun c => c)
            (SourceFile.mk "/a/f.nc" "xyz" 3 :: [])) [])) "d1" =
      histOf
        (runAll (some 7) 5
          (buildCandidates (fun _ => some ("d1", "f.nc")) (fun c => c)
            (SourceFile.mk "/a/f.nc" "xyz" 3 :: [])) []) "d1" ∧
    (histOf
      (runAll (some 7) 5
        (buildCandidates (fun _ => some ("d1", "f.nc")) (fun c => c)
          (SourceFile.mk "/a/f.nc" "xyz" 3 :: []))
        (runAll (some 7) 5
          (buildCandidates (fun _ => some ("d1", "f.nc")) (fun c => c)
            (SourceFile.mk "/a/f.nc" "xyz" 3 :: [])) [])) "d1").length =
      (histOf
        (runAll (some 7) 5
          (buildCandidates (fun _ => some ("d1", "f.nc")) (fun c => c)
            (SourceFile.mk "/a/f.nc" "xyz" 3 :: [])) []) "d1").length :=
  c6_pipeline_idempotent (fun _ => some ("d1", "f.nc")) (fun c => c) (some 7) 5
    (SourceFile.mk "/a/f.nc" "xyz" 3 :: []) [] (by decide) "d1"

/-- C7: the process exit status is 99 exactly when an argument-parsing error
occurred, zero exactly when the run fully completed with no failed dataset
(including the all-up-to-date, nothing-to-do case), and non-zero whenever at
least one dataset failed unrecoverably. -/
theorem c7_exit_status (o : RunOutcome) :
    (exitStatus o = 99 ↔ o = RunOutcome.argParseError) ∧
    (exitStatus o = 0 ↔ ∃ u i g, o = RunOutcome.completed u i g 0) ∧
    (∀ u i g f, o = RunOutcome.completed u i g f → 0 < f → exitStatus o ≠ 0) := by
  rcases o with _ | ⟨u, i, g, f⟩
  · refine ⟨iff_of_true rfl rfl, iff_of_false (by simp [exitStatus]) ?_, ?_⟩
    · rintro ⟨u, i, g, hh⟩
      exact RunOutcome.noConfusion hh
    · intro u i g f hf hpos
      exact RunOutcome.noConfusion hf
  · by_cases hf : f = 0
    · subst hf
      refine ⟨iff_of_false (by simp [exitStatus]) (fun hh => RunOutcome.noConfusion hh),
        iff_of_true (by simp [exitStatus]) ⟨u, i, g, rfl⟩, ?_⟩
      intro u2 i2 g2 f2 hf2 hpos
      injection hf2 with h1 h2 h3 h4
      subst h4
      exact absurd hpos (lt_irrefl 0)
    · refine ⟨iff_of_false (by simp [exitStatus, hf]) (fun hh => RunOutcome.noConfusion hh),
        iff_of_false (by simp [exitStatus, hf]) ?_, ?_⟩
      · rintro ⟨u2, i2, g2, hh⟩
        injection hh with h1 h2 h3 h4
        exact hf h4
      · intro u2 i2 g2 f2 hf2 hpos
        simp [exitStatus, hf]

theorem c7_witness :
    exitStatus RunOutcome.argParseError = 99 ∧
    exitStatus (RunOutcome.completed 3 1 2 0) = 0 ∧
    exitStatus (RunOutcome.completed 0 0 0 2) ≠ 0 :=
  ⟨(c7_exit_status RunOutcome.argParseError).1.mpr rfl,
    (c7_exit_status (RunOutcome.completed 3 1 2 0)).2.1.mpr ⟨3, 1, 2, rfl⟩,
    (c7_exit_status (RunOutcome.completed 0 0 0 2)).2.2 0 0 0 2 rfl (by decide)⟩

/-- C8: with the default filters, a candidate survives the walk iff its
directory path does not match the documented ignore-directory pattern, its
file name matches the default include pattern and does not match the default
exclude pattern; on newline-free names the ignore pattern holds exactly of
paths containing a /files, /latest or hidden (/.) component, the include
pattern exactly of names ending in .nc, and the exclude pattern exactly of
hidden names starting with a dot; filtered-out candidates are counted and
dropped silently, never errored. -/
theorem c8_default_filters (ps : List PathCandidate) :
    (∀ p, p ∈ ps →
      (p ∈ (walkFilter ignoreDirDefault includeFileDefault excludeFileDefault ps).kept ↔
        (rmatch ignoreDirDefault p.dirPath.data = false ∧
         rmatch includeFileDefault p.fileName.data = true ∧
         rmatch excludeFileDefault p.fileName.data = false))) ∧
    (∀ l, noNL l = true → (rmatch ignoreDirDefault l = true ↔
      (∃ t u, l = t ++ ('/' :: 'f' :: 'i' :: 'l' :: 'e' :: 's' :: []) ++ u) ∨
      (∃ t u, l = t ++ ('/' :: 'l' :: 'a' :: 't' :: 'e' :: 's' :: 't' :: []) ++ u) ∨
      (∃ t u, l = t ++ ('/' :: '.' :: []) ++ u))) ∧
    (∀ l, noNL l = true → (rmatch includeFileDefault l = true ↔
      ∃ t, l = t ++ ('.' :: 'n' :: 'c' :: []))) ∧
    (∀ l, noNL l = true → (rmatch excludeFileDefault l = true ↔ ∃ t, l = '.' :: t)) ∧
    ((walkFilter ignoreDirDefault includeFileDefault excludeFileDefault ps).kept.length +
      (walkFilter ignoreDirDefault includeFileDefault excludeFileDefault ps).dropped =
      ps.length) ∧
    (walkFilter ignoreDirDefault includeFileDefault excludeFileDefault ps).errors = [] := by
  refine ⟨?_, ?_, ?_, ?_, ?_, rfl⟩
  · intro p hp
    show p ∈ ps.filter
        (keepCandidate ignoreDirDefault includeFileDefault excludeFileDefault) ↔ _
    rw [List.mem_filter]
    constructor
    · rintro ⟨_, hk⟩
      rw [keepCandidate, Bool.and_eq_true, Bool.and_eq_true] at hk
      rcases hk with ⟨⟨h1, h2⟩, h3⟩
      exact ⟨by simpa using h1, h2, by simpa using h3⟩
    · rintro ⟨h1, h2, h3⟩
      refine ⟨hp, ?_⟩
      rw [keepCandidate, h1, h2, h3]
      rfl
  · exact fun l hnl => ignore_dir_default_iff hnl
  · exact fun l hnl => include_default_iff hnl
  · exact fun l hnl => exclude_default_iff hnl
  · exact length_filter_split
      (keepCandidate ignoreDirDefault includeFileDefault excludeFileDefault) ps

theorem c8_witness :
    (PathCandidate.mk "/data/run" "tas.nc" ∈
      (walkFilter ignoreDirDefault includeFileDefault excludeFileDefault
        (PathCandidate.mk "/data/run" "tas.nc" ::
          PathCandidate.mk "/data/latest" "x.nc" :: [])).kept) ∧
    rmatch ignoreDirDefault ('a' :: '/' :: '.' :: 'g' :: []) = true ∧
    rmatch excludeFileDefault ('.' :: 'h' :: []) = true := by
  refine ⟨?_, ?_, ?_⟩
  · exact ((c8_default_filters
      (PathCandidate.mk "/data/run" "tas.nc" ::
        PathCandidate.mk "/data/latest" "x.nc" :: [])).1
      (PathCandidate.mk "/data/run" "tas.nc") (by decide)).mpr (by decide)
  · exact ((c8_default_filters []).2.1 ('a' :: '/' :: '.' :: 'g' :: []) (by decide)).mpr
      (Or.inr (Or.inr ⟨'a' :: [], 'g' :: [], rfl⟩))
  · exact ((c8_default_filters []).2.2.2.1 ('.' :: 'h' :: []) (by decide)).mpr
      ⟨'h' :: [], rfl⟩

/-- C9, counterexample to the claim as stated: the esgfetchini command
accepts an invocation that omits the project identifier (src/docs/usage.rst:
the project argument is always required EXCEPT for esgfetchini), so it is
not true that every command of the suite fails without it. -/
theorem c9_counterexample :
    checkProjectArg Command.esgfetchini false = Except.ok () := rfl

/-- C9, amended: for every command of the suite other than esgfetchini, an
invocation that omits the project identifier fails with an argument-parsing
error (exit code 99) rather than proceeding. -/
theorem c9_project_required (cmd : Command) (h : cmd ≠ Command.esgfetchini) :
    checkProjectArg cmd false = Except.error 99 := by
  rcases cmd with _ | _ | _ | _
  · exact absurd rfl h
  · rfl
  · rfl
  · rfl

theorem c9_witness :
    (Command.esgdrs ≠ Command.esgfetchini) ∧
      checkProjectArg Command.esgdrs false = Except.error 99 :=
  ⟨by decide, c9_project_required Command.esgdrs (by decide)⟩

/-- C10: whenever output goes to a logfile instead of the interactive
console, the debug/verbose mode is silently activated — each step is logged
verbosely and no progress bars are shown — even when the debug flag was not
supplied. -/
theorem c10_logfile_activates_debug (debugFlag : Bool) :
    (outputModeOf debugFlag true).verboseSteps = true ∧
    (outputModeOf debugFlag true).progressBars = false :=
  ⟨rfl, rfl⟩
